import Mathlib

/-!
Shallow embedding of the MarketMicrostructureEngine matching core
(`order_book.cpp`, `matching_engine.cpp`, `types.h`).

Machine types: `OrderId`/`TraderId` are unsigned 64-bit in the source but no
arithmetic is ever performed on them, so they are modelled as `Nat`.
`Price`/`Quantity` are signed 64-bit (`std::int64_t`); matching only forms
`min` and differences that shrink in magnitude, so within-range inputs never
overflow and they are modelled as `Int`.  The market-order sentinels are the
exact `int64` extremes.

`std::map<Price, Queue, cmp>` is modelled as an association list whose keys
are kept in the comparator's order (`begin()` = head = best price).
`std::list<BookOrder>` queues are `List BookOrder`; a stored
`Queue::iterator` (the slot handle kept in `order_index_`) is modelled as the
position of the slot in its queue, which is the faithful reading whenever the
book satisfies its index-consistency invariant (the only states in which the
source dereferences those iterators without undefined behaviour).
`std::unordered_map` is an association list with key lookup / upsert / erase.
-/

namespace MarketMicroStructure

abbrev OrderId := Nat
abbrev TraderId := Nat
abbrev SymbolId := String
abbrev Price := Int
abbrev Quantity := Int

inductive Side where
  | Buy
  | Sell
deriving DecidableEq, Repr

inductive OrderType where
  | Limit
  | Market
deriving DecidableEq, Repr

inductive TimeInForce where
  | Day
  | IOC
  | FOK
deriving DecidableEq, Repr

structure NewOrder where
  id : OrderId
  trader : TraderId
  symbol : SymbolId
  side : Side
  type : OrderType
  tif : TimeInForce
  price : Price
  qty : Quantity
deriving DecidableEq, Repr

structure CancelOrder where
  id : OrderId
deriving DecidableEq, Repr

structure Trade where
  resting_id : OrderId
  incoming_id : OrderId
  symbol : SymbolId
  aggressor_side : Side
  price : Price
  qty : Quantity
  match_timestamp_ns : Nat
deriving DecidableEq, Repr

structure BookLevel where
  price : Price
  qty : Quantity
deriving DecidableEq, Repr

/-- `TopOfBook` as in `types.h`; `valid` is default-initialised to `false`.
The two levels are scalar aggregates left indeterminate by `TopOfBook tob;`
in the source; the model defaults them to zeroes (no claim depends on them). -/
structure TopOfBook where
  symbol : SymbolId
  best_bid : BookLevel
  best_ask : BookLevel
  valid : Bool
deriving DecidableEq, Repr

structure BookOrder where
  id : OrderId
  trader : TraderId
  qty : Quantity
  price : Price
  side : Side
  ts_ns : Nat
deriving DecidableEq, Repr

abbrev Queue := List BookOrder

/-- One side of the book: price levels in comparator order (head = best). -/
abbrev SideMap := List (Price × Queue)

/-- Key order of `bids_` (`std::greater<Price>`): highest price first. -/
def bidLt (a b : Price) : Bool := decide (b < a)

/-- Key order of `asks_` (`std::less<Price>`): lowest price first. -/
def askLt (a b : Price) : Bool := decide (a < b)

/-- `order_index_` value: side, price, and the slot handle (the stored
`Queue::iterator`, modelled as the slot's position in its queue). -/
structure OrderLocation where
  side : Side
  price : Price
  pos : Nat
deriving DecidableEq, Repr

/-- `unordered_map::find`. -/
def alistFind {α β : Type} [DecidableEq α] : List (α × β) → α → Option β
  | [], _ => none
  | (a, b) :: rest, k => if a = k then some b else alistFind rest k

/-- `unordered_map::operator[]=`: overwrite if present, append otherwise. -/
def alistUpsert {α β : Type} [DecidableEq α] : List (α × β) → α → β → List (α × β)
  | [], k, v => [(k, v)]
  | (a, b) :: rest, k, v =>
      if a = k then (k, v) :: rest else (a, b) :: alistUpsert rest k v

/-- `unordered_map::erase(key)`. -/
def alistErase {α β : Type} [DecidableEq α] : List (α × β) → α → List (α × β)
  | [], _ => []
  | (a, b) :: rest, k => if a = k then rest else (a, b) :: alistErase rest k

abbrev OrderIndex := List (OrderId × OrderLocation)

structure OrderBook where
  symbol_ : SymbolId
  bids_ : SideMap
  asks_ : SideMap
  order_index_ : OrderIndex
deriving DecidableEq, Repr

def OrderBook.empty (sym : SymbolId) : OrderBook := ⟨sym, [], [], []⟩

/-- `side_map[ord.price].push_back(ord)` (`operator[]` creates a missing
level at its sorted key position); returns the updated side together with
the position of the appended slot (`std::prev(queue->end())`). -/
def insertOrder (lt : Price → Price → Bool) (ord : BookOrder) : SideMap → SideMap × Nat
  | [] => ([(ord.price, [ord])], 0)
  | (p, q) :: rest =>
      if ord.price = p then ((p, q ++ [ord]) :: rest, q.length)
      else if lt ord.price p then ((ord.price, [ord]) :: (p, q) :: rest, 0)
      else
        let r := insertOrder lt ord rest
        ((p, q) :: r.1, r.2)

/-- `OrderBook::addOrder`: append to the queue at `ord.price` on `ord.side`,
then store `ord.id → OrderLocation{side, price, slot}` in the index. -/
def OrderBook.addOrder (b : OrderBook) (ord : BookOrder) : OrderBook :=
  if ord.side = Side.Buy then
    let r := insertOrder bidLt ord b.bids_
    { b with bids_ := r.1,
             order_index_ := alistUpsert b.order_index_ ord.id ⟨ord.side, ord.price, r.2⟩ }
  else
    let r := insertOrder askLt ord b.asks_
    { b with asks_ := r.1,
             order_index_ := alistUpsert b.order_index_ ord.id ⟨ord.side, ord.price, r.2⟩ }

/-- The body of `eraseFromSide` in `OrderBook::removeFromSide(id, PriceLevelBid&)`:
`side_map.find(loc.price)`, erase the slot the stored iterator designates,
and drop the level if its queue becomes empty.  (Erasing an out-of-range
position is undefined behaviour in the source; the model leaves the queue
unchanged, a case unreachable from index-consistent states.) -/
def eraseFromSideMap (price : Price) (pos : Nat) : SideMap → SideMap
  | [] => []
  | (p, q) :: rest =>
      if p = price then
        let q' := q.eraseIdx pos
        if q' = [] then rest else (p, q') :: rest
      else (p, q) :: eraseFromSideMap price pos rest

/-- `OrderBook::removeFromSide(OrderId, PriceLevelBid&)`: despite its
parameter, it works purely through `order_index_` and erases from whichever
side the stored location names, then erases the index entry. -/
def OrderBook.removeFromSideIdx (b : OrderBook) (id : OrderId) : Bool × OrderBook :=
  match alistFind b.order_index_ id with
  | none => (false, b)
  | some loc =>
      let b' :=
        if loc.side = Side.Buy then
          { b with bids_ := eraseFromSideMap loc.price loc.pos b.bids_ }
        else
          { b with asks_ := eraseFromSideMap loc.price loc.pos b.asks_ }
      (true, { b' with order_index_ := alistErase b'.order_index_ id })

/-- Inner loop of `OrderBook::removeFromSide(OrderId, PriceLevelAsk&)`:
erase the first slot of the queue holding `id`, if any. -/
def queueEraseFirst (id : OrderId) : Queue → Option Queue
  | [] => none
  | o :: os =>
      if o.id = id then some os
      else (queueEraseFirst id os).map (fun q => o :: q)

/-- `OrderBook::removeFromSide(OrderId, PriceLevelAsk&)`: linear scan over
the levels; on a hit erase the slot (dropping an emptied level) and stop.
It does not touch `order_index_`. -/
def scanErase (id : OrderId) : SideMap → Option SideMap
  | [] => none
  | (p, q) :: rest =>
      match queueEraseFirst id q with
      | some q' => some (if q' = [] then rest else (p, q') :: rest)
      | none => (scanErase id rest).map (fun m => (p, q) :: m)

/-- `OrderBook::cancelOrder`: try the index-based overload (called with
`bids_`), then the scanning overload (called with `asks_`). -/
def OrderBook.cancelOrder (b : OrderBook) (id : OrderId) : Bool × OrderBook :=
  let r1 := b.removeFromSideIdx id
  if r1.1 then (true, r1.2)
  else
    match scanErase id b.asks_ with
    | some m => (true, { b with asks_ := m })
    | none => (false, b)

/-- The price test of `matchIncoming`: a Buy crosses when
`incoming.price >= resting.price`, a Sell when `incoming.price <= resting.price`. -/
def crosses (incoming : BookOrder) (restingPrice : Price) : Bool :=
  if incoming.side = Side.Buy then decide (restingPrice ≤ incoming.price)
  else decide (incoming.price ≤ restingPrice)

/-- One price level's share of the `while` loop in `matchIncoming`'s `exec`
lambda: repeatedly trade against `queue.front()` while quantity remains
and the prices cross.  A full fill erases the resting id from the index and
pops the queue (structural recursion); a partial fill leaves the decremented
head in place, and since `traded = min(remaining, resting.qty)` the residual
is then zero, so the source's loop exits just as the model does.
Returns the remaining queue, the residual, the trades appended so far
(`trades.push_back`), and the updated `order_index_`. -/
def execQueue (incoming : BookOrder) (sym : SymbolId) (aggr : Side) (ts_ns : Nat) :
    Queue → Quantity → List Trade → OrderIndex →
    Queue × Quantity × List Trade × OrderIndex
  | [], remaining, trades, index => ([], remaining, trades, index)
  | resting :: qs, remaining, trades, index =>
      if remaining ≤ 0 then (resting :: qs, remaining, trades, index)
      else if ¬ crosses incoming resting.price then (resting :: qs, remaining, trades, index)
      else
        let traded := min remaining resting.qty
        let t : Trade := ⟨resting.id, incoming.id, sym, aggr, resting.price, traded, ts_ns⟩
        if resting.qty - traded = 0 then
          execQueue incoming sym aggr ts_ns qs (remaining - traded)
            (trades ++ [t]) (alistErase index resting.id)
        else
          ({ resting with qty := resting.qty - traded } :: qs,
            remaining - traded, trades ++ [t], index)

/-- The outer `while` of `exec`: take `book_side.begin()` (best level), run
the queue; if the queue empties the level is erased and the loop moves to the
next level, otherwise the loop terminates (residual exhausted or no cross,
which at an unchanged front repeats and breaks).  A level whose queue is
already empty (impossible under invariant (ii); `front()` there is undefined
behaviour in the source) is simply dropped. -/
def execLevels (incoming : BookOrder) (sym : SymbolId) (aggr : Side) (ts_ns : Nat) :
    SideMap → Quantity → List Trade → OrderIndex →
    SideMap × Quantity × List Trade × OrderIndex
  | [], remaining, trades, index => ([], remaining, trades, index)
  | (p, q) :: rest, remaining, trades, index =>
      if remaining ≤ 0 then ((p, q) :: rest, remaining, trades, index)
      else
        let r := execQueue incoming sym aggr ts_ns q remaining trades index
        if r.1 = [] then
          execLevels incoming sym aggr ts_ns rest r.2.1 r.2.2.1 r.2.2.2
        else
          ((p, r.1) :: rest, r.2.1, r.2.2.1, r.2.2.2)

structure MatchResult where
  book : OrderBook
  trades : List Trade
  remaining : Quantity
deriving DecidableEq, Repr

/-- `OrderBook::matchIncoming`: `remaining = incoming.qty`; a Buy aggresses
`asks_` (lowest first), a Sell aggresses `bids_` (highest first).  The
function-local static trades buffer is modelled separately
(`matchIncomingBuffered`); this is the value it computes after `clear()`. -/
def OrderBook.matchIncoming (b : OrderBook) (incoming : BookOrder) (ts_ns : Nat) :
    MatchResult :=
  if incoming.side = Side.Buy then
    let r := execLevels incoming b.symbol_ Side.Buy ts_ns b.asks_ incoming.qty [] b.order_index_
    ⟨{ b with asks_ := r.1, order_index_ := r.2.2.2 }, r.2.2.1, r.2.1⟩
  else
    let r := execLevels incoming b.symbol_ Side.Sell ts_ns b.bids_ incoming.qty [] b.order_index_
    ⟨{ b with bids_ := r.1, order_index_ := r.2.2.2 }, r.2.2.1, r.2.1⟩

/-- `OrderBook::matchIncoming` with the function-local `static
std::vector<Trade> trades` made explicit.  A `static` local has one storage
instance shared by every call on every `OrderBook`, so the buffer is
threaded through the call: the caller passes the buffer as the previous call
left it, `trades.clear()` discards those contents, and the matching loop
refills it.  The returned trade list is (a pointer to) this same buffer. -/
def OrderBook.matchIncomingBuffered (b : OrderBook) (incoming : BookOrder) (ts_ns : Nat)
    (_buf : List Trade) : OrderBook × List Trade × Quantity :=
  let cleared : List Trade := []
  if incoming.side = Side.Buy then
    let r := execLevels incoming b.symbol_ Side.Buy ts_ns b.asks_ incoming.qty cleared b.order_index_
    ({ b with asks_ := r.1, order_index_ := r.2.2.2 }, r.2.2.1, r.2.1)
  else
    let r := execLevels incoming b.symbol_ Side.Sell ts_ns b.bids_ incoming.qty cleared b.order_index_
    ({ b with bids_ := r.1, order_index_ := r.2.2.2 }, r.2.2.1, r.2.1)

/-- `OrderBook::bestBid`: first bid level with the sum of its queue's
quantities; absent when the side is empty. -/
def OrderBook.bestBid (b : OrderBook) : Option BookLevel :=
  match b.bids_ with
  | [] => none
  | (p, q) :: _ => some ⟨p, (q.map BookOrder.qty).sum⟩

/-- `OrderBook::bestAsk`. -/
def OrderBook.bestAsk (b : OrderBook) : Option BookLevel :=
  match b.asks_ with
  | [] => none
  | (p, q) :: _ => some ⟨p, (q.map BookOrder.qty).sum⟩

/-! ### MatchingEngine (`matching_engine.cpp`) -/

/-- `std::numeric_limits<Price>::max()` — the Buy market-order sentinel. -/
def MaxPrice : Price := 2 ^ 63 - 1

/-- `std::numeric_limits<Price>::min()` — the Sell market-order sentinel. -/
def MinPrice : Price := -(2 ^ 63)

structure MatchingEngine where
  books_ : List (SymbolId × OrderBook)
  order_symbol_index_ : List (OrderId × SymbolId)
deriving DecidableEq, Repr

def MatchingEngine.empty : MatchingEngine := ⟨[], []⟩

/-- `MatchingEngine::addSymbol`: `emplace` inserts only when absent. -/
def MatchingEngine.addSymbol (e : MatchingEngine) (symbol : SymbolId) : MatchingEngine :=
  match alistFind e.books_ symbol with
  | some _ => e
  | none => { e with books_ := e.books_ ++ [(symbol, OrderBook.empty symbol)] }

/-- Result of one `handleNewOrder` call: the mutated engine plus what was
handed to `MarketDataPublisher` (each `publishTrade`, in order, and the
`publishTopOfBook` if any). -/
structure HandleResult where
  engine : MatchingEngine
  publishedTrades : List Trade
  publishedTob : Option TopOfBook
deriving DecidableEq, Repr

/-- The aggressor `BookOrder` built by `handleNewOrder`: the instruction's
fields with the arrival timestamp, and for Market orders the price replaced
by the crossing sentinel. -/
def buildAggressor (o : NewOrder) (ts_ns : Nat) : BookOrder :=
  let incoming0 : BookOrder := ⟨o.id, o.trader, o.qty, o.price, o.side, ts_ns⟩
  if o.type = OrderType.Market then
    if o.side = Side.Buy then { incoming0 with price := MaxPrice }
    else { incoming0 with price := MinPrice }
  else incoming0

/-- The top-of-book construction and publication decision closing
`handleNewOrder` (the same block closes `handleCancel`): `valid` starts
false; if a best bid exists, set the bid level and `valid = true`; if a best
ask exists, set the ask level and `valid = valid && true`; publish iff
`valid`. -/
def buildTob (symbol : SymbolId) (book2 : OrderBook) : Option TopOfBook :=
  let tob0 : TopOfBook := ⟨symbol, ⟨0, 0⟩, ⟨0, 0⟩, false⟩
  let tob1 :=
    match book2.bestBid with
    | some lv => { tob0 with best_bid := lv, valid := true }
    | none => tob0
  let tob2 :=
    match book2.bestAsk with
    | some lv => { tob1 with best_ask := lv, valid := tob1.valid && true }
    | none => tob1
  if tob2.valid then some tob2 else none

/-- `MatchingEngine::handleNewOrder`, line by line: resolve the book (silent
drop if the symbol is unknown); build the aggressor, substituting the
sentinel price for Market orders; match; for each trade publish it and erase
`t.resting_id` from `order_symbol_index_` (the source erases on every trade);
rest the order when `type == Limit && remaining > 0` (`tif` is never read);
build the `TopOfBook` via the two conditional blocks and publish it when its
`valid` flag ends up true. -/
def MatchingEngine.handleNewOrder (e : MatchingEngine) (o : NewOrder) (ts_ns : Nat) :
    HandleResult :=
  match alistFind e.books_ o.symbol with
  | none => ⟨e, [], none⟩
  | some book =>
      let incoming : BookOrder := buildAggressor o ts_ns
      let mr := book.matchIncoming incoming ts_ns
      let osi1 := mr.trades.foldl (fun m t => alistErase m t.resting_id) e.order_symbol_index_
      let bookOsi :=
        if o.type = OrderType.Limit ∧ 0 < mr.remaining then
          (mr.book.addOrder { incoming with qty := mr.remaining },
           alistUpsert osi1 o.id o.symbol)
        else (mr.book, osi1)
      ⟨⟨alistUpsert e.books_ o.symbol bookOsi.1, bookOsi.2⟩, mr.trades,
        buildTob o.symbol bookOsi.1⟩

/-! ### Derived views and invariants -/

/-- All orders of one side, levels in map (priority) order, each level's
queue in arrival order: the price-time priority sequence of the side. -/
def flattenOrders : SideMap → List BookOrder
  | [] => []
  | (_, q) :: rest => q ++ flattenOrders rest

/-- Every order resting in the book (bids, then asks). -/
def OrderBook.allOrders (b : OrderBook) : List BookOrder :=
  flattenOrders b.bids_ ++ flattenOrders b.asks_

/-- The ids of every order resting in the book. -/
def OrderBook.allIds (b : OrderBook) : List OrderId :=
  b.allOrders.map BookOrder.id

/-- Invariant (v): a side's keys are strictly ordered by its comparator
(head is the best price). -/
abbrev sideSorted (lt : Price → Price → Bool) (m : SideMap) : Prop :=
  List.Chain' (fun a b => lt a.1 b.1 = true) m

/-- Every order sits in the queue of its own price (as `addOrder` puts it). -/
abbrev queuesMatchKey (m : SideMap) : Prop :=
  ∀ pq ∈ m, ∀ o ∈ pq.2, o.price = pq.1

/-- Invariant (i): every resting order has positive remaining quantity. -/
abbrev allQtyPos (m : SideMap) : Prop :=
  ∀ pq ∈ m, ∀ o ∈ pq.2, 0 < o.qty

/-- Dereference a stored `OrderLocation` (the slot the index points at). -/
def OrderBook.slotAt (b : OrderBook) (loc : OrderLocation) : Option BookOrder :=
  (alistFind (if loc.side = Side.Buy then b.bids_ else b.asks_) loc.price).bind
    (fun q => q.get? loc.pos)

/-- Index-consistency of a book, as the source relies on it: every index
entry points at a live slot holding its id, resting ids are unique, every
resting id is indexed, and index keys are unique. -/
abbrev OrderBook.wellFormed (b : OrderBook) : Prop :=
  (∀ e ∈ b.order_index_, (b.slotAt e.2).map BookOrder.id = some e.1) ∧
  b.allIds.Nodup ∧
  (∀ i ∈ b.allIds, (alistFind b.order_index_ i).isSome = true) ∧
  (b.order_index_.map Prod.fst).Nodup

/-- Total traded quantity of a trade list. -/
def tradesQty (ts : List Trade) : Quantity :=
  (ts.map Trade.qty).sum

/-- The (maker id, trade price) projection of a trade. -/
def tradeKey (t : Trade) : OrderId × Price := (t.resting_id, t.price)

/-- The (id, price) projection of a resting order. -/
def orderKey (o : BookOrder) : OrderId × Price := (o.id, o.price)

/-- The opposite side an aggressor consumes. -/
def OrderBook.oppositeSide (b : OrderBook) (s : Side) : SideMap :=
  if s = Side.Buy then b.asks_ else b.bids_

/-! ### Association-list lemmas -/

theorem alistFind_upsert_self {α β : Type} [DecidableEq α] (m : List (α × β)) (k : α) (v : β) :
    alistFind (alistUpsert m k v) k = some v := by
  induction m with
  | nil => simp [alistUpsert, alistFind]
  | cons hd tl ih =>
      obtain ⟨a, b⟩ := hd
      by_cases h : a = k
      · simp [alistUpsert, h, alistFind]
      · simp [alistUpsert, h, alistFind, ih]

theorem alistFind_erase_none {α β : Type} [DecidableEq α] (m : List (α × β)) (j k : α)
    (h : alistFind m k = none) : alistFind (alistErase m j) k = none := by
  induction m with
  | nil => simpa [alistErase] using h
  | cons hd tl ih =>
      obtain ⟨a, b⟩ := hd
      simp only [alistFind] at h
      by_cases hj : a = j
      · simp only [alistErase, if_pos hj]
        split at h
        · exact absurd h (by simp)
        · exact h
      · simp only [alistErase, if_neg hj, alistFind]
        split at h
        · exact absurd h (by simp)
        · next hak => simp only [alistFind, if_neg hak]; exact ih h

theorem alistFind_foldl_erase_none {α β : Type} [DecidableEq α]
    (f : Trade → α) (ts : List Trade) (m : List (α × β)) (k : α)
    (h : alistFind m k = none) :
    alistFind (ts.foldl (fun acc t => alistErase acc (f t)) m) k = none := by
  induction ts generalizing m with
  | nil => exact h
  | cons t ts ih =>
      exact ih (alistErase m (f t)) (alistFind_erase_none m (f t) k h)

theorem alistFind_eq_none_of_not_mem_keys {α β : Type} [DecidableEq α]
    (m : List (α × β)) (k : α) (h : k ∉ m.map Prod.fst) : alistFind m k = none := by
  induction m with
  | nil => simp [alistFind]
  | cons hd tl ih =>
      obtain ⟨a, b⟩ := hd
      simp only [List.map_cons, List.mem_cons] at h
      have hak : a ≠ k := fun hh => h (Or.inl hh.symm)
      simp only [alistFind, if_neg hak]
      exact ih (fun hm => h (Or.inr hm))

theorem alistErase_find_self {α β : Type} [DecidableEq α] (m : List (α × β)) (k : α)
    (h : (m.map Prod.fst).Nodup) : alistFind (alistErase m k) k = none := by
  induction m with
  | nil => simp [alistErase, alistFind]
  | cons hd tl ih =>
      obtain ⟨a, b⟩ := hd
      simp only [List.map_cons, List.nodup_cons] at h
      by_cases hk : a = k
      · subst hk
        simp only [alistErase, if_pos rfl]
        exact alistFind_eq_none_of_not_mem_keys tl a h.1
      · simp only [alistErase, if_neg hk, alistFind, if_neg hk]
        exact ih h.2

theorem alistFind_mem {α β : Type} [DecidableEq α] (m : List (α × β)) (k : α) (v : β)
    (h : alistFind m k = some v) : (k, v) ∈ m := by
  induction m with
  | nil => simp [alistFind] at h
  | cons hd tl ih =>
      obtain ⟨a, b⟩ := hd
      simp only [alistFind] at h
      split at h
      · next hak =>
          subst hak
          injection h with h
          subst h
          exact List.mem_cons_self _ _
      · exact List.mem_cons_of_mem _ (ih h)

/-! ### Lemmas about the matching loop -/

theorem execQueue_conserve (inc : BookOrder) (sym : SymbolId) (ag : Side) (ts : Nat)
    (q : Queue) :
    ∀ (rem : Quantity) (tr : List Trade) (idx : OrderIndex),
      tradesQty (execQueue inc sym ag ts q rem tr idx).2.2.1 +
        (execQueue inc sym ag ts q rem tr idx).2.1 = tradesQty tr + rem := by
  induction q with
  | nil => intro rem tr idx; simp [execQueue]
  | cons resting qs ih =>
      intro rem tr idx
      simp only [execQueue]
      split
      · ring
      · split
        · ring
        · split
          · rw [ih]
            simp only [tradesQty, List.map_append, List.sum_append, List.map_cons,
              List.map_nil, List.sum_cons, List.sum_nil]
            ring
          · simp only [tradesQty, List.map_append, List.sum_append, List.map_cons,
              List.map_nil, List.sum_cons, List.sum_nil]
            ring

theorem execQueue_nonneg (inc : BookOrder) (sym : SymbolId) (ag : Side) (ts : Nat)
    (q : Queue) :
    ∀ (rem : Quantity) (tr : List Trade) (idx : OrderIndex),
      0 ≤ rem → (∀ o ∈ q, 0 < o.qty) →
      0 ≤ (execQueue inc sym ag ts q rem tr idx).2.1 ∧
        (∀ o ∈ (execQueue inc sym ag ts q rem tr idx).1, 0 < o.qty) := by
  induction q with
  | nil => intro rem tr idx hrem hq; simpa [execQueue] using hrem
  | cons resting qs ih =>
      intro rem tr idx hrem hq
      have hrest : 0 < resting.qty := hq resting (List.mem_cons_self _ _)
      have hqs : ∀ o ∈ qs, 0 < o.qty := fun o ho => hq o (List.mem_cons_of_mem _ ho)
      simp only [execQueue]
      split
      · exact ⟨hrem, hq⟩
      · split
        · exact ⟨hrem, hq⟩
        · split
          · refine ih _ _ _ ?_ hqs
            exact sub_nonneg.mpr (min_le_left _ _)
          · next hne =>
              constructor
              · exact sub_nonneg.mpr (min_le_left _ _)
              · intro o ho
                rcases List.mem_cons.mp ho with h | h
                · subst h
                  exact lt_of_le_of_ne (sub_nonneg.mpr (min_le_right _ _)) (Ne.symm hne)
                · exact hqs o h

theorem execQueue_keys (inc : BookOrder) (sym : SymbolId) (ag : Side) (ts : Nat)
    (q : Queue) :
    ∀ (rem : Quantity) (tr : List Trade) (idx : OrderIndex),
      ∃ k, k ≤ q.length ∧
        (execQueue inc sym ag ts q rem tr idx).2.2.1.map tradeKey =
          tr.map tradeKey ++ (q.take k).map orderKey ∧
        ((execQueue inc sym ag ts q rem tr idx).1 = [] → k = q.length) := by
  induction q with
  | nil =>
      intro rem tr idx
      exact ⟨0, by simp [execQueue]⟩
  | cons resting qs ih =>
      intro rem tr idx
      simp only [execQueue]
      split
      · exact ⟨0, by simp⟩
      · split
        · exact ⟨0, by simp⟩
        · split
          · obtain ⟨k, hk, heq, hemp⟩ := ih (rem - min rem resting.qty)
              (tr ++ [⟨resting.id, inc.id, sym, ag, resting.price, min rem resting.qty, ts⟩])
              (alistErase idx resting.id)
            refine ⟨k + 1, by simpa using Nat.succ_le_succ hk, ?_, ?_⟩
            · rw [heq]
              simp [tradeKey, orderKey, List.take_succ_cons]
            · intro h
              simpa using congrArg Nat.succ (hemp h)
          · refine ⟨1, by simp, ?_, by simp⟩
            simp [tradeKey, orderKey]

theorem execQueue_ids (inc : BookOrder) (sym : SymbolId) (ag : Side) (ts : Nat)
    (q : Queue) :
    ∀ (rem : Quantity) (tr : List Trade) (idx : OrderIndex),
      (execQueue inc sym ag ts q rem tr idx).1.map BookOrder.id ⊆ q.map BookOrder.id := by
  induction q with
  | nil => intro rem tr idx; simp [execQueue]
  | cons resting qs ih =>
      intro rem tr idx
      simp only [execQueue]
      split
      · exact fun x hx => hx
      · split
        · exact fun x hx => hx
        · split
          · exact fun x hx => List.mem_cons_of_mem _ (ih _ _ _ hx)
          · intro x hx
            rcases List.mem_cons.mp hx with h | h
            · exact List.mem_cons.mpr (Or.inl h)
            · exact List.mem_cons_of_mem _ h

theorem execLevels_conserve (inc : BookOrder) (sym : SymbolId) (ag : Side) (ts : Nat)
    (m : SideMap) :
    ∀ (rem : Quantity) (tr : List Trade) (idx : OrderIndex),
      tradesQty (execLevels inc sym ag ts m rem tr idx).2.2.1 +
        (execLevels inc sym ag ts m rem tr idx).2.1 = tradesQty tr + rem := by
  induction m with
  | nil => intro rem tr idx; simp [execLevels]
  | cons lv rest ih =>
      obtain ⟨p, q⟩ := lv
      intro rem tr idx
      simp only [execLevels]
      split
      · ring
      · split
        · rw [ih]
          have := execQueue_conserve inc sym ag ts q rem tr idx
          simpa using this
        · exact execQueue_conserve inc sym ag ts q rem tr idx

theorem execLevels_nonneg (inc : BookOrder) (sym : SymbolId) (ag : Side) (ts : Nat)
    (m : SideMap) :
    ∀ (rem : Quantity) (tr : List Trade) (idx : OrderIndex),
      0 ≤ rem → (∀ o ∈ flattenOrders m, 0 < o.qty) →
      0 ≤ (execLevels inc sym ag ts m rem tr idx).2.1 ∧
        (∀ o ∈ flattenOrders (execLevels inc sym ag ts m rem tr idx).1, 0 < o.qty) := by
  induction m with
  | nil => intro rem tr idx hrem _; exact ⟨by simpa [execLevels] using hrem, by simp [execLevels, flattenOrders]⟩
  | cons lv rest ih =>
      obtain ⟨p, q⟩ := lv
      intro rem tr idx hrem hall
      have hq : ∀ o ∈ q, 0 < o.qty := fun o ho =>
        hall o (by simp [flattenOrders, ho])
      have hrest : ∀ o ∈ flattenOrders rest, 0 < o.qty := fun o ho =>
        hall o (by simp [flattenOrders, ho])
      simp only [execLevels]
      split
      · exact ⟨hrem, hall⟩
      · have hinner := execQueue_nonneg inc sym ag ts q rem tr idx hrem hq
        split
        · exact ih _ _ _ hinner.1 hrest
        · refine ⟨hinner.1, ?_⟩
          intro o ho
          simp only [flattenOrders, List.mem_append] at ho
          rcases ho with h | h
          · exact hinner.2 o h
          · exact hrest o h

theorem execLevels_keys (inc : BookOrder) (sym : SymbolId) (ag : Side) (ts : Nat)
    (m : SideMap) :
    ∀ (rem : Quantity) (tr : List Trade) (idx : OrderIndex),
      ∃ k, (execLevels inc sym ag ts m rem tr idx).2.2.1.map tradeKey =
        tr.map tradeKey ++ (((flattenOrders m).take k).map orderKey) := by
  induction m with
  | nil => intro rem tr idx; exact ⟨0, by simp [execLevels]⟩
  | cons lv rest ih =>
      obtain ⟨p, q⟩ := lv
      intro rem tr idx
      simp only [execLevels]
      split
      · exact ⟨0, by simp⟩
      · obtain ⟨k1, hk1, heq1, hemp1⟩ := execQueue_keys inc sym ag ts q rem tr idx
        split
        · next hq0 =>
            obtain ⟨k2, heq2⟩ := ih (execQueue inc sym ag ts q rem tr idx).2.1
              (execQueue inc sym ag ts q rem tr idx).2.2.1
              (execQueue inc sym ag ts q rem tr idx).2.2.2
            refine ⟨q.length + k2, ?_⟩
            rw [heq2, heq1, hemp1 hq0]
            simp only [flattenOrders, List.take_append, List.map_append, List.append_assoc,
              List.take_length]
        · refine ⟨k1, ?_⟩
          rw [heq1]
          simp only [flattenOrders]
          rw [List.take_append_of_le_length hk1]

theorem execLevels_ids (inc : BookOrder) (sym : SymbolId) (ag : Side) (ts : Nat)
    (m : SideMap) :
    ∀ (rem : Quantity) (tr : List Trade) (idx : OrderIndex),
      (flattenOrders (execLevels inc sym ag ts m rem tr idx).1).map BookOrder.id ⊆
        (flattenOrders m).map BookOrder.id := by
  induction m with
  | nil => intro rem tr idx; simp [execLevels]
  | cons lv rest ih =>
      obtain ⟨p, q⟩ := lv
      intro rem tr idx
      simp only [execLevels]
      split
      · exact fun x hx => hx
      · split
        · intro x hx
          have := ih _ _ _ hx
          simp only [flattenOrders, List.map_append, List.mem_append]
          exact Or.inr this
        · intro x hx
          simp only [flattenOrders, List.map_append, List.mem_append] at hx ⊢
          rcases hx with h | h
          · exact Or.inl (execQueue_ids inc sym ag ts q rem tr idx h)
          · exact Or.inr h

theorem chain_take {α : Type} {R : α → α → Prop} :
    ∀ (l : List α), List.Chain' R l → ∀ (n : Nat), List.Chain' R (l.take n) := by
  intro l hl n
  induction l generalizing n with
  | nil => simp
  | cons a l ih =>
      cases n with
      | zero => simp
      | succ n =>
          cases l with
          | nil => simp
          | cons b l2 =>
              rw [List.chain'_cons] at hl
              cases n with
              | zero => simp
              | succ n =>
              · rw [List.take_succ_cons, List.take_succ_cons, List.chain'_cons]
                refine ⟨hl.1, ?_⟩
                have := ih hl.2 (n + 1)
                simpa using this

theorem chain_of_all_eq {α : Type} {R : α → α → Prop} (p : α) (hrefl : R p p) :
    ∀ (l : List α), (∀ x ∈ l, x = p) → List.Chain' R l := by
  intro l
  induction l with
  | nil => simp
  | cons a l ih =>
      intro h
      cases l with
      | nil => simp
      | cons b l2 =>
          rw [List.chain'_cons]
          have ha : a = p := h a (by simp)
          have hb : b = p := h b (by simp)
          subst ha; subst hb
          exact ⟨hrefl, ih (fun x hx => h x (List.mem_cons_of_mem _ hx))⟩

/-- Every level's queue nonempty — book invariant (ii). -/
abbrev queuesNonempty (m : SideMap) : Prop :=
  ∀ pq ∈ m, pq.2 ≠ []

theorem flatten_head_price (m : SideMap) (hk : queuesMatchKey m) (hne : queuesNonempty m) :
    ((flattenOrders m).map BookOrder.price).head? = (m.map Prod.fst).head? := by
  cases m with
  | nil => rfl
  | cons lv rest =>
      obtain ⟨p, q⟩ := lv
      cases q with
      | nil => exact absurd rfl (hne (p, []) (by simp))
      | cons o os =>
          have : o.price = p := hk (p, o :: os) (by simp) o (by simp)
          simp [flattenOrders, this]

/-- The price sequence of a side's flatten (its price-time priority order)
is monotone in the side's comparator when the book invariants hold. -/
theorem chain_flatten_prices (lt : Price → Price → Bool) (R : Price → Price → Prop)
    (hR : ∀ a b, lt a b = true → R a b) (hrefl : ∀ a, R a a) :
    ∀ (m : SideMap), sideSorted lt m → queuesMatchKey m → queuesNonempty m →
      List.Chain' R ((flattenOrders m).map BookOrder.price) := by
  intro m
  induction m with
  | nil => intro _ _ _; simp [flattenOrders]
  | cons lv rest ih =>
      obtain ⟨p, q⟩ := lv
      intro hs hk hne
      have hkq : ∀ o ∈ q, o.price = p := fun o ho => hk (p, q) (by simp) o ho
      have hkrest : queuesMatchKey rest := fun pq hpq o ho =>
        hk pq (List.mem_cons_of_mem _ hpq) o ho
      have hnerest : queuesNonempty rest := fun pq hpq =>
        hne pq (List.mem_cons_of_mem _ hpq)
      have hsrest : sideSorted lt rest := (List.chain'_cons'.mp hs).2
      simp only [flattenOrders, List.map_append]
      rw [List.chain'_append]
      refine ⟨?_, ih hsrest hkrest hnerest, ?_⟩
      · exact chain_of_all_eq p (hrefl p) _ (by
          intro x hx
          obtain ⟨o, ho, rfl⟩ := List.mem_map.mp hx
          exact hkq o ho)
      · intro x hx y hy
        have hxp : x = p := by
          have hxm : x ∈ q.map BookOrder.price := List.mem_of_mem_getLast? hx
          obtain ⟨o, ho, rfl⟩ := List.mem_map.mp hxm
          exact hkq o ho
        subst hxp
        rw [flatten_head_price rest hkrest hnerest] at hy
        cases rest with
        | nil => simp at hy
        | cons lv2 rest2 =>
            obtain ⟨p2, q2⟩ := lv2
            simp only [List.map_cons, List.head?_cons, Option.mem_def,
              Option.some.injEq] at hy
            subst hy
            exact hR _ _ ((List.chain'_cons'.mp hs).1 (p2, q2) (by simp))

theorem insertOrder_mem_self (lt : Price → Price → Bool) (ord : BookOrder) :
    ∀ (m : SideMap), ord ∈ flattenOrders (insertOrder lt ord m).1 := by
  intro m
  induction m with
  | nil => simp [insertOrder, flattenOrders]
  | cons lv rest ih =>
      obtain ⟨p, q⟩ := lv
      simp only [insertOrder]
      split
      · simp [flattenOrders]
      · split
        · simp [flattenOrders]
        · simp only [flattenOrders, List.mem_append]
          exact Or.inr ih

theorem insertOrder_mem_of (lt : Price → Price → Bool) (ord : BookOrder) :
    ∀ (m : SideMap) (x : BookOrder),
      x ∈ flattenOrders m → x ∈ flattenOrders (insertOrder lt ord m).1 := by
  intro m
  induction m with
  | nil => intro x hx; simp [flattenOrders] at hx
  | cons lv rest ih =>
      obtain ⟨p, q⟩ := lv
      intro x hx
      simp only [flattenOrders, List.mem_append] at hx
      simp only [insertOrder]
      split
      · simp only [flattenOrders, List.append_assoc, List.mem_append, List.mem_singleton]
        tauto
      · split
        · simp only [flattenOrders, List.append_assoc, List.mem_append, List.mem_singleton]
          tauto
        · simp only [flattenOrders, List.mem_append]
          rcases hx with h | h
          · exact Or.inl h
          · exact Or.inr (ih x h)

theorem insertOrder_flatten_length (lt : Price → Price → Bool) (ord : BookOrder) :
    ∀ (m : SideMap),
      (flattenOrders (insertOrder lt ord m).1).length = (flattenOrders m).length + 1 := by
  intro m
  induction m with
  | nil => simp [insertOrder, flattenOrders]
  | cons lv rest ih =>
      obtain ⟨p, q⟩ := lv
      simp only [insertOrder]
      split
      · simp only [flattenOrders, List.length_append, List.length_cons, List.length_nil]
        omega
      · split
        · simp only [flattenOrders, List.length_append, List.length_cons, List.length_nil]
          omega
        · simp only [flattenOrders, List.length_append, ih]
          omega

theorem insertOrder_points (lt : Price → Price → Bool) (ord : BookOrder) :
    ∀ (m : SideMap),
      (alistFind (insertOrder lt ord m).1 ord.price).bind
        (fun q => q.get? (insertOrder lt ord m).2) = some ord := by
  intro m
  induction m with
  | nil => simp [insertOrder, alistFind]
  | cons lv rest ih =>
      obtain ⟨p, q⟩ := lv
      simp only [insertOrder]
      split
      · next hp =>
          subst hp
          simp [alistFind, List.get?_eq_getElem?, List.getElem?_concat_length]
      · split
        · simp [alistFind]
        · next hp _ =>
            have hp2 : p ≠ ord.price := fun hh => hp hh.symm
            simp only [alistFind, if_neg hp2]
            exact ih

/-- `addOrder` leaves the added order resting in the book. -/
theorem addOrder_mem_self (b : OrderBook) (ord : BookOrder) :
    ord ∈ (b.addOrder ord).allOrders := by
  unfold OrderBook.addOrder
  split
  · simp only [OrderBook.allOrders, List.mem_append]
    exact Or.inl (insertOrder_mem_self bidLt ord b.bids_)
  · simp only [OrderBook.allOrders, List.mem_append]
    exact Or.inr (insertOrder_mem_self askLt ord b.asks_)

/-- Matching never introduces ids: resting ids after `matchIncoming` were
resting before. -/
theorem matchIncoming_ids_sub (b : OrderBook) (incoming : BookOrder) (ts_ns : Nat) :
    (b.matchIncoming incoming ts_ns).book.allIds ⊆ b.allIds := by
  unfold OrderBook.matchIncoming
  split
  · intro x hx
    simp only [OrderBook.allIds, OrderBook.allOrders, List.map_append,
      List.mem_append] at hx ⊢
    rcases hx with h | h
    · exact Or.inl h
    · exact Or.inr (execLevels_ids incoming b.symbol_ Side.Buy ts_ns b.asks_ _ _ _ h)
  · intro x hx
    simp only [OrderBook.allIds, OrderBook.allOrders, List.map_append,
      List.mem_append] at hx ⊢
    rcases hx with h | h
    · exact Or.inl (execLevels_ids incoming b.symbol_ Side.Sell ts_ns b.bids_ _ _ _ h)
    · exact Or.inr h

/-- Every trade generated by the matching loop names the id and price of an
order that was resting on the consumed side. -/
theorem execLevels_trade_src (inc : BookOrder) (sym : SymbolId) (ag : Side) (ts : Nat)
    (m : SideMap) (rem : Quantity) (idx : OrderIndex) :
    ∀ t ∈ (execLevels inc sym ag ts m rem [] idx).2.2.1,
      ∃ o ∈ flattenOrders m, o.id = t.resting_id ∧ o.price = t.price := by
  intro t ht
  obtain ⟨k, heq⟩ := execLevels_keys inc sym ag ts m rem [] idx
  have htk : tradeKey t ∈ (execLevels inc sym ag ts m rem [] idx).2.2.1.map tradeKey :=
    List.mem_map_of_mem _ ht
  rw [heq] at htk
  simp only [List.map_nil, List.nil_append] at htk
  obtain ⟨o, ho, hok⟩ := List.mem_map.mp htk
  exact ⟨o, List.take_subset _ _ ho, congrArg Prod.fst hok, congrArg Prod.snd hok⟩

theorem queueEraseFirst_none (i : OrderId) :
    ∀ (q : Queue), (∀ o ∈ q, o.id ≠ i) → queueEraseFirst i q = none := by
  intro q
  induction q with
  | nil => intro _; rfl
  | cons x xs ih =>
      intro h
      simp only [queueEraseFirst, if_neg (h x (by simp))]
      rw [ih (fun o ho => h o (by simp [ho]))]
      rfl

theorem scanErase_none (i : OrderId) :
    ∀ (m : SideMap), (∀ o ∈ flattenOrders m, o.id ≠ i) → scanErase i m = none := by
  intro m
  induction m with
  | nil => intro _; rfl
  | cons lv rest ih =>
      obtain ⟨p, q⟩ := lv
      intro h
      simp only [scanErase]
      rw [queueEraseFirst_none i q (fun o ho => h o (by simp [flattenOrders, ho]))]
      rw [ih (fun o ho => h o (by simp [flattenOrders, ho]))]
      rfl

theorem mem_flatten_of_level : ∀ (m : SideMap) (p : Price) (q : Queue) (o : BookOrder),
    (p, q) ∈ m → o ∈ q → o ∈ flattenOrders m := by
  intro m
  induction m with
  | nil => intro p q o h _; simp at h
  | cons lv rest ih =>
      obtain ⟨p0, q0⟩ := lv
      intro p q o h ho
      simp only [flattenOrders, List.mem_append]
      rcases List.mem_cons.mp h with h1 | h1
      · injection h1 with hp hq
        subst hq
        exact Or.inl ho
      · exact Or.inr (ih p q o h1 ho)

theorem slotAt_mem_side (b : OrderBook) (loc : OrderLocation) (o : BookOrder)
    (h : b.slotAt loc = some o) :
    o ∈ flattenOrders (if loc.side = Side.Buy then b.bids_ else b.asks_) := by
  unfold OrderBook.slotAt at h
  cases hf : alistFind (if loc.side = Side.Buy then b.bids_ else b.asks_) loc.price with
  | none => rw [hf] at h; simp at h
  | some q =>
      rw [hf] at h
      simp only [Option.some_bind] at h
      exact mem_flatten_of_level _ loc.price q o (alistFind_mem _ _ _ hf) (List.get?_mem h)

theorem find_index_none_of_not_resting (b : OrderBook) (i : OrderId)
    (hwf1 : ∀ e ∈ b.order_index_, (b.slotAt e.2).map BookOrder.id = some e.1)
    (hni : i ∉ b.allIds) : alistFind b.order_index_ i = none := by
  cases hf : alistFind b.order_index_ i with
  | none => rfl
  | some loc =>
      have h1 := hwf1 (i, loc) (alistFind_mem _ _ _ hf)
      obtain ⟨o, ho, hoid⟩ := Option.map_eq_some'.mp h1
      have hmemAll : o ∈ b.allOrders := by
        have hs := slotAt_mem_side b loc o ho
        unfold OrderBook.allOrders
        by_cases hb : loc.side = Side.Buy
        · rw [if_pos hb] at hs; exact List.mem_append_left _ hs
        · rw [if_neg hb] at hs; exact List.mem_append_right _ hs
      have hoid2 : o.id = i := hoid
      exact absurd (hoid2 ▸ List.mem_map_of_mem BookOrder.id hmemAll) hni

theorem flatten_eraseFromSideMap (p : Price) (pos : Nat) :
    ∀ (m : SideMap) (q : Queue), alistFind m p = some q →
      ∃ A B, flattenOrders m = A ++ (q ++ B) ∧
        flattenOrders (eraseFromSideMap p pos m) = A ++ (q.eraseIdx pos ++ B) := by
  intro m
  induction m with
  | nil => intro q h; simp [alistFind] at h
  | cons lv rest ih =>
      obtain ⟨p0, q0⟩ := lv
      intro q h
      simp only [alistFind] at h
      by_cases hp : p0 = p
      · rw [if_pos hp] at h
        injection h with h
        subst h
        refine ⟨[], flattenOrders rest, by simp [flattenOrders], ?_⟩
        simp only [eraseFromSideMap, if_pos hp]
        split
        · next hq2 => simp [flattenOrders, hq2]
        · simp [flattenOrders]
      · rw [if_neg hp] at h
        obtain ⟨A, B, h1, h2⟩ := ih q h
        refine ⟨q0 ++ A, B, ?_, ?_⟩
        · simp [flattenOrders, h1]
        · simp only [eraseFromSideMap, if_neg hp]
          simp [flattenOrders, h2]

theorem not_mem_ids_eraseIdx : ∀ (q : Queue) (pos : Nat) (o : BookOrder),
    q.get? pos = some o → (q.map BookOrder.id).Nodup →
    o.id ∉ (q.eraseIdx pos).map BookOrder.id := by
  intro q
  induction q with
  | nil => intro pos o h; simp at h
  | cons x xs ih =>
      intro pos o h hnd
      simp only [List.map_cons, List.nodup_cons] at hnd
      cases pos with
      | zero =>
          simp only [List.get?] at h
          injection h with h
          subst h
          simpa [List.eraseIdx] using hnd.1
      | succ n =>
          simp only [List.get?] at h
          simp only [List.eraseIdx, List.map_cons, List.mem_cons]
          intro hmem
          rcases hmem with h1 | h1
          · exact hnd.1 (h1 ▸ List.mem_map_of_mem BookOrder.id (List.get?_mem h))
          · exact ih n o h hnd.2 h1

/-! ### Claim theorems -/

/-- **C5.** For every incoming order and book state, the trades returned by
`OrderBook::matchIncoming` and the returned residual satisfy
`sum(trade qty) + residual = incoming.qty`; combined with the book invariant
that resting quantities are positive, after matching an incoming order with
`qty > 0` the residual and every quantity remaining on the book are `≥ 0`. -/
theorem matchIncoming_conservation (b : OrderBook) (incoming : BookOrder) (ts_ns : Nat)
    (hq : 0 < incoming.qty) (hb : ∀ o ∈ b.allOrders, 0 < o.qty) :
    tradesQty (b.matchIncoming incoming ts_ns).trades +
        (b.matchIncoming incoming ts_ns).remaining = incoming.qty ∧
      0 ≤ (b.matchIncoming incoming ts_ns).remaining ∧
      ∀ o ∈ (b.matchIncoming incoming ts_ns).book.allOrders, 0 ≤ o.qty := by
  have hb1 : ∀ o ∈ flattenOrders b.bids_, 0 < o.qty := fun o ho =>
    hb o (by simp [OrderBook.allOrders, ho])
  have hb2 : ∀ o ∈ flattenOrders b.asks_, 0 < o.qty := fun o ho =>
    hb o (by simp [OrderBook.allOrders, ho])
  simp only [OrderBook.matchIncoming]
  split
  · have hcons := execLevels_conserve incoming b.symbol_ Side.Buy ts_ns b.asks_
      incoming.qty [] b.order_index_
    have hnn := execLevels_nonneg incoming b.symbol_ Side.Buy ts_ns b.asks_
      incoming.qty [] b.order_index_ hq.le hb2
    refine ⟨?_, hnn.1, ?_⟩
    · simpa [tradesQty] using hcons
    · intro o ho
      simp only [OrderBook.allOrders, List.mem_append] at ho
      rcases ho with h | h
      · exact (hb1 o h).le
      · exact (hnn.2 o h).le
  · have hcons := execLevels_conserve incoming b.symbol_ Side.Sell ts_ns b.bids_
      incoming.qty [] b.order_index_
    have hnn := execLevels_nonneg incoming b.symbol_ Side.Sell ts_ns b.bids_
      incoming.qty [] b.order_index_ hq.le hb1
    refine ⟨?_, hnn.1, ?_⟩
    · simpa [tradesQty] using hcons
    · intro o ho
      simp only [OrderBook.allOrders, List.mem_append] at ho
      rcases ho with h | h
      · exact (hnn.2 o h).le
      · exact (hb2 o h).le

/-- Witness for C5 at a concrete input: a Buy 100×3 against a book with one
resting ask 100×5 trades 3 and leaves 2 on the book. -/
theorem matchIncoming_conservation_witness :
    (0 : Quantity) < 3 ∧
      tradesQty ((OrderBook.mk "S" [] [(100, [⟨1, 0, 5, 100, Side.Sell, 1⟩])]
            [(1, ⟨Side.Sell, 100, 0⟩)]).matchIncoming ⟨2, 0, 3, 100, Side.Buy, 2⟩ 2).trades +
          ((OrderBook.mk "S" [] [(100, [⟨1, 0, 5, 100, Side.Sell, 1⟩])]
            [(1, ⟨Side.Sell, 100, 0⟩)]).matchIncoming ⟨2, 0, 3, 100, Side.Buy, 2⟩ 2).remaining = 3 ∧
        0 ≤ ((OrderBook.mk "S" [] [(100, [⟨1, 0, 5, 100, Side.Sell, 1⟩])]
            [(1, ⟨Side.Sell, 100, 0⟩)]).matchIncoming ⟨2, 0, 3, 100, Side.Buy, 2⟩ 2).remaining ∧
        ∀ o ∈ ((OrderBook.mk "S" [] [(100, [⟨1, 0, 5, 100, Side.Sell, 1⟩])]
            [(1, ⟨Side.Sell, 100, 0⟩)]).matchIncoming ⟨2, 0, 3, 100, Side.Buy, 2⟩ 2).book.allOrders,
          0 ≤ o.qty :=
  ⟨by decide,
    matchIncoming_conservation
      (OrderBook.mk "S" [] [(100, [⟨1, 0, 5, 100, Side.Sell, 1⟩])] [(1, ⟨Side.Sell, 100, 0⟩)])
      ⟨2, 0, 3, 100, Side.Buy, 2⟩ 2 (by decide) (by decide)⟩

/-- **C6.** Every trade emitted by `OrderBook::matchIncoming` carries the id
and the price of the resting (maker) order it consumed — never the
aggressor's price; consequently, if no resting order carries a market-order
crossing sentinel price, no emitted trade does either. -/
theorem matchIncoming_maker_price (b : OrderBook) (incoming : BookOrder) (ts_ns : Nat) :
    (∀ t ∈ (b.matchIncoming incoming ts_ns).trades,
        ∃ o ∈ b.allOrders, o.id = t.resting_id ∧ o.price = t.price) ∧
      ((∀ o ∈ b.allOrders, o.price ≠ MaxPrice ∧ o.price ≠ MinPrice) →
        ∀ t ∈ (b.matchIncoming incoming ts_ns).trades,
          t.price ≠ MaxPrice ∧ t.price ≠ MinPrice) := by
  have main : ∀ t ∈ (b.matchIncoming incoming ts_ns).trades,
      ∃ o ∈ b.allOrders, o.id = t.resting_id ∧ o.price = t.price := by
    simp only [OrderBook.matchIncoming]
    split
    · intro t ht
      obtain ⟨o, ho, h1, h2⟩ := execLevels_trade_src incoming b.symbol_ Side.Buy ts_ns
        b.asks_ incoming.qty b.order_index_ t ht
      exact ⟨o, by simp [OrderBook.allOrders, ho], h1, h2⟩
    · intro t ht
      obtain ⟨o, ho, h1, h2⟩ := execLevels_trade_src incoming b.symbol_ Side.Sell ts_ns
        b.bids_ incoming.qty b.order_index_ t ht
      exact ⟨o, by simp [OrderBook.allOrders, ho], h1, h2⟩
  refine ⟨main, fun hs t ht => ?_⟩
  obtain ⟨o, ho, _, hp⟩ := main t ht
  exact hp ▸ hs o ho

/-- Witness for C6: a Buy market order at the `MaxPrice` sentinel against an
ask book free of sentinel prices produces only maker-priced trades. -/
theorem matchIncoming_maker_price_witness :
    (∀ t ∈ ((OrderBook.mk "S" [] [(100, [⟨1, 0, 5, 100, Side.Sell, 1⟩])]
          [(1, ⟨Side.Sell, 100, 0⟩)]).matchIncoming ⟨2, 0, 3, MaxPrice, Side.Buy, 2⟩ 2).trades,
        ∃ o ∈ (OrderBook.mk "S" [] [(100, [⟨1, 0, 5, 100, Side.Sell, 1⟩])]
          [(1, ⟨Side.Sell, 100, 0⟩)]).allOrders, o.id = t.resting_id ∧ o.price = t.price) ∧
      ((∀ o ∈ (OrderBook.mk "S" [] [(100, [⟨1, 0, 5, 100, Side.Sell, 1⟩])]
          [(1, ⟨Side.Sell, 100, 0⟩)]).allOrders, o.price ≠ MaxPrice ∧ o.price ≠ MinPrice) →
        ∀ t ∈ ((OrderBook.mk "S" [] [(100, [⟨1, 0, 5, 100, Side.Sell, 1⟩])]
          [(1, ⟨Side.Sell, 100, 0⟩)]).matchIncoming ⟨2, 0, 3, MaxPrice, Side.Buy, 2⟩ 2).trades,
          t.price ≠ MaxPrice ∧ t.price ≠ MinPrice) :=
  matchIncoming_maker_price
    (OrderBook.mk "S" [] [(100, [⟨1, 0, 5, 100, Side.Sell, 1⟩])] [(1, ⟨Side.Sell, 100, 0⟩)])
    ⟨2, 0, 3, MaxPrice, Side.Buy, 2⟩ 2

/-- **C9.** `matchIncoming`'s trade list lives in one function-local static
buffer shared by every call on every book: a call's result does not depend
on what the buffer held before (`trades.clear()` runs first), and after a
second call — on any book — the buffer holds exactly the second call's
trades, destroying the list the first call returned. -/
theorem matchIncomingBuffered_overwrites (b1 b2 : OrderBook) (i1 i2 : BookOrder)
    (ts1 ts2 : Nat) (buf buf2 : List Trade) :
    b1.matchIncomingBuffered i1 ts1 buf = b1.matchIncomingBuffered i1 ts1 buf2 ∧
      (b1.matchIncomingBuffered i1 ts1 buf).2.1 = (b1.matchIncoming i1 ts1).trades ∧
      (b2.matchIncomingBuffered i2 ts2
          (b1.matchIncomingBuffered i1 ts1 buf).2.1).2.1 =
        (b2.matchIncoming i2 ts2).trades := by
  refine ⟨rfl, ?_, ?_⟩
  · by_cases h : i1.side = Side.Buy <;>
      simp [OrderBook.matchIncomingBuffered, OrderBook.matchIncoming, h]
  · by_cases h : i2.side = Side.Buy <;>
      simp [OrderBook.matchIncomingBuffered, OrderBook.matchIncoming, h]

/-- **C4.** Against a book satisfying the book invariants (sides sorted
best-first, queues keyed by their price, levels nonempty), the trades of
`matchIncoming` consume the price-time priority sequence of the opposite
side — its levels flattened best price first, each queue in arrival order —
as a prefix: ids and prices of the trades are exactly an initial segment of
that sequence, and trade prices are monotone (nondecreasing for a Buy
aggressor walking the asks, nonincreasing for a Sell walking the bids). -/
theorem matchIncoming_price_time_priority (b : OrderBook) (incoming : BookOrder)
    (ts_ns : Nat)
    (hsb : sideSorted bidLt b.bids_) (hsa : sideSorted askLt b.asks_)
    (hkb : queuesMatchKey b.bids_) (hka : queuesMatchKey b.asks_)
    (hnb : queuesNonempty b.bids_) (hna : queuesNonempty b.asks_) :
    (∃ k, (b.matchIncoming incoming ts_ns).trades.map tradeKey =
        ((flattenOrders (b.oppositeSide incoming.side)).map orderKey).take k) ∧
      List.Chain' (fun x y => if incoming.side = Side.Buy then x ≤ y else y ≤ x)
        ((b.matchIncoming incoming ts_ns).trades.map Trade.price) := by
  by_cases hside : incoming.side = Side.Buy
  · obtain ⟨k, heq⟩ := execLevels_keys incoming b.symbol_ Side.Buy ts_ns b.asks_
      incoming.qty [] b.order_index_
    have heq2 : (b.matchIncoming incoming ts_ns).trades.map tradeKey =
        ((flattenOrders b.asks_).map orderKey).take k := by
      simp only [OrderBook.matchIncoming, if_pos hside]
      rw [heq]
      simp [List.map_take]
    refine ⟨⟨k, by simpa [OrderBook.oppositeSide, hside] using heq2⟩, ?_⟩
    have hprices : (b.matchIncoming incoming ts_ns).trades.map Trade.price =
        ((flattenOrders b.asks_).map BookOrder.price).take k := by
      have := congrArg (List.map Prod.snd) heq2
      simpa [List.map_map, List.map_take, Function.comp, tradeKey, orderKey] using this
    rw [hprices]
    have hchain : List.Chain' (fun x y : Price => x ≤ y)
        ((flattenOrders b.asks_).map BookOrder.price) := by
      refine chain_flatten_prices askLt _ ?_ ?_ b.asks_ hsa hka hna
      · intro a c hac
        exact le_of_lt (by simpa [askLt] using hac)
      · intro a; exact le_refl a
    exact (chain_take _ hchain k).imp (fun a c hac => by simpa [hside] using hac)
  · obtain ⟨k, heq⟩ := execLevels_keys incoming b.symbol_ Side.Sell ts_ns b.bids_
      incoming.qty [] b.order_index_
    have heq2 : (b.matchIncoming incoming ts_ns).trades.map tradeKey =
        ((flattenOrders b.bids_).map orderKey).take k := by
      simp only [OrderBook.matchIncoming, if_neg hside]
      rw [heq]
      simp [List.map_take]
    refine ⟨⟨k, by simpa [OrderBook.oppositeSide, hside] using heq2⟩, ?_⟩
    have hprices : (b.matchIncoming incoming ts_ns).trades.map Trade.price =
        ((flattenOrders b.bids_).map BookOrder.price).take k := by
      have := congrArg (List.map Prod.snd) heq2
      simpa [List.map_map, List.map_take, Function.comp, tradeKey, orderKey] using this
    rw [hprices]
    have hchain : List.Chain' (fun x y : Price => y ≤ x)
        ((flattenOrders b.bids_).map BookOrder.price) := by
      refine chain_flatten_prices bidLt _ ?_ ?_ b.bids_ hsb hkb hnb
      · intro a c hac
        exact le_of_lt (by simpa [bidLt] using hac)
      · intro a; exact le_refl a
    exact (chain_take _ hchain k).imp (fun a c hac => by simpa [hside] using hac)

/-- Witness for C4: a Buy 102×60 sweeping a two-level ask book
{101×50, 102×75} consumes the priority sequence in order. -/
theorem matchIncoming_price_time_priority_witness :
    (∃ k, ((OrderBook.mk "S" [] [(101, [⟨1, 0, 50, 101, Side.Sell, 1⟩]),
            (102, [⟨2, 0, 75, 102, Side.Sell, 2⟩])]
          [(1, ⟨Side.Sell, 101, 0⟩), (2, ⟨Side.Sell, 102, 0⟩)]).matchIncoming
            ⟨4, 0, 60, 102, Side.Buy, 4⟩ 4).trades.map tradeKey =
        ((flattenOrders ((OrderBook.mk "S" [] [(101, [⟨1, 0, 50, 101, Side.Sell, 1⟩]),
            (102, [⟨2, 0, 75, 102, Side.Sell, 2⟩])]
          [(1, ⟨Side.Sell, 101, 0⟩), (2, ⟨Side.Sell, 102, 0⟩)]).oppositeSide
            (⟨4, 0, 60, 102, Side.Buy, 4⟩ : BookOrder).side)).map orderKey).take k) ∧
      List.Chain' (fun x y =>
          if (⟨4, 0, 60, 102, Side.Buy, 4⟩ : BookOrder).side = Side.Buy then x ≤ y else y ≤ x)
        (((OrderBook.mk "S" [] [(101, [⟨1, 0, 50, 101, Side.Sell, 1⟩]),
            (102, [⟨2, 0, 75, 102, Side.Sell, 2⟩])]
          [(1, ⟨Side.Sell, 101, 0⟩), (2, ⟨Side.Sell, 102, 0⟩)]).matchIncoming
            ⟨4, 0, 60, 102, Side.Buy, 4⟩ 4).trades.map Trade.price) :=
  matchIncoming_price_time_priority
    (OrderBook.mk "S" [] [(101, [⟨1, 0, 50, 101, Side.Sell, 1⟩]),
        (102, [⟨2, 0, 75, 102, Side.Sell, 2⟩])]
      [(1, ⟨Side.Sell, 101, 0⟩), (2, ⟨Side.Sell, 102, 0⟩)])
    ⟨4, 0, 60, 102, Side.Buy, 4⟩ 4
    (by simp) (by simp [List.chain'_cons, askLt]) (by decide) (by decide)
    (by decide) (by decide)

theorem buildAggressor_id (o : NewOrder) (ts_ns : Nat) :
    (buildAggressor o ts_ns).id = o.id := by
  unfold buildAggressor
  split
  · split <;> rfl
  · rfl

theorem buildTob_isSome (symbol : SymbolId) (book2 : OrderBook) :
    (buildTob symbol book2).isSome = book2.bestBid.isSome := by
  unfold buildTob
  cases hbb : book2.bestBid <;> cases hba : book2.bestAsk <;> simp

/-- **C1 (amended).** On a known symbol, with a fresh order id, the order
rests — its id maps to its symbol in `orderSymbolIndex`, its id is among the
book's resting ids, and it sits in the book with quantity equal to the
residual — iff its type is Limit and the residual after matching is
positive.  The source never consults `tif`, so Limit+IOC rests exactly like
Limit+Day; only Market and fully-filled orders never rest. -/
theorem handleNewOrder_resting_rule (e : MatchingEngine) (o : NewOrder) (ts_ns : Nat)
    (book : OrderBook)
    (hbook : alistFind e.books_ o.symbol = some book)
    (hfresh1 : alistFind e.order_symbol_index_ o.id = none)
    (hfresh2 : o.id ∉ book.allIds) :
    (alistFind (e.handleNewOrder o ts_ns).engine.order_symbol_index_ o.id = some o.symbol ↔
        o.type = OrderType.Limit ∧
          0 < (book.matchIncoming (buildAggressor o ts_ns) ts_ns).remaining) ∧
      (o.id ∈ ((alistFind (e.handleNewOrder o ts_ns).engine.books_ o.symbol).getD
            (OrderBook.empty o.symbol)).allIds ↔
        o.type = OrderType.Limit ∧
          0 < (book.matchIncoming (buildAggressor o ts_ns) ts_ns).remaining) ∧
      (o.type = OrderType.Limit ∧
          0 < (book.matchIncoming (buildAggressor o ts_ns) ts_ns).remaining →
        { buildAggressor o ts_ns with
            qty := (book.matchIncoming (buildAggressor o ts_ns) ts_ns).remaining } ∈
          ((alistFind (e.handleNewOrder o ts_ns).engine.books_ o.symbol).getD
            (OrderBook.empty o.symbol)).allOrders) := by
  simp only [MatchingEngine.handleNewOrder, hbook]
  by_cases hrest : o.type = OrderType.Limit ∧
      0 < (book.matchIncoming (buildAggressor o ts_ns) ts_ns).remaining
  · simp only [if_pos hrest, alistFind_upsert_self, Option.getD_some]
    refine ⟨by simp [hrest], ?_, ?_⟩
    · have hmem := addOrder_mem_self
        (book.matchIncoming (buildAggressor o ts_ns) ts_ns).book
        { buildAggressor o ts_ns with
            qty := (book.matchIncoming (buildAggressor o ts_ns) ts_ns).remaining }
      have hid : ({ buildAggressor o ts_ns with
          qty := (book.matchIncoming (buildAggressor o ts_ns) ts_ns).remaining }
            : BookOrder).id = o.id := buildAggressor_id o ts_ns
      exact iff_of_true (hid ▸ List.mem_map_of_mem BookOrder.id hmem) hrest
    · intro _
      exact addOrder_mem_self _ _
  · simp only [if_neg hrest, alistFind_upsert_self, Option.getD_some]
    have hosi : alistFind
        ((book.matchIncoming (buildAggressor o ts_ns) ts_ns).trades.foldl
          (fun m t => alistErase m t.resting_id) e.order_symbol_index_) o.id = none :=
      alistFind_foldl_erase_none Trade.resting_id _ _ _ hfresh1
    refine ⟨by simp [hosi, hrest], ?_, fun hr => absurd hr hrest⟩
    constructor
    · intro hin
      exact absurd (matchIncoming_ids_sub book (buildAggressor o ts_ns) ts_ns hin) hfresh2
    · intro hr
      exact absurd hr hrest

/-- Witness for C1: a Limit+IOC Buy 100×5 with fresh id 1 on known empty
symbol "S" rests (the amended rule ignores tif). -/
theorem handleNewOrder_resting_rule_witness :
    (alistFind ((MatchingEngine.mk [("S", OrderBook.empty "S")] []).handleNewOrder
          ⟨1, 7, "S", Side.Buy, OrderType.Limit, TimeInForce.IOC, 100, 5⟩ 10).engine.order_symbol_index_
        1 = some "S" ↔
      (⟨1, 7, "S", Side.Buy, OrderType.Limit, TimeInForce.IOC, 100, 5⟩ : NewOrder).type =
          OrderType.Limit ∧
        0 < ((OrderBook.empty "S").matchIncoming
          (buildAggressor ⟨1, 7, "S", Side.Buy, OrderType.Limit, TimeInForce.IOC, 100, 5⟩ 10)
          10).remaining) ∧
      (1 ∈ ((alistFind ((MatchingEngine.mk [("S", OrderBook.empty "S")] []).handleNewOrder
            ⟨1, 7, "S", Side.Buy, OrderType.Limit, TimeInForce.IOC, 100, 5⟩ 10).engine.books_
            "S").getD (OrderBook.empty "S")).allIds ↔
        (⟨1, 7, "S", Side.Buy, OrderType.Limit, TimeInForce.IOC, 100, 5⟩ : NewOrder).type =
            OrderType.Limit ∧
          0 < ((OrderBook.empty "S").matchIncoming
            (buildAggressor ⟨1, 7, "S", Side.Buy, OrderType.Limit, TimeInForce.IOC, 100, 5⟩ 10)
            10).remaining) ∧
      ((⟨1, 7, "S", Side.Buy, OrderType.Limit, TimeInForce.IOC, 100, 5⟩ : NewOrder).type =
            OrderType.Limit ∧
          0 < ((OrderBook.empty "S").matchIncoming
            (buildAggressor ⟨1, 7, "S", Side.Buy, OrderType.Limit, TimeInForce.IOC, 100, 5⟩ 10)
            10).remaining →
        { buildAggressor ⟨1, 7, "S", Side.Buy, OrderType.Limit, TimeInForce.IOC, 100, 5⟩ 10 with
            qty := ((OrderBook.empty "S").matchIncoming
              (buildAggressor ⟨1, 7, "S", Side.Buy, OrderType.Limit, TimeInForce.IOC, 100, 5⟩ 10)
              10).remaining } ∈
          ((alistFind ((MatchingEngine.mk [("S", OrderBook.empty "S")] []).handleNewOrder
            ⟨1, 7, "S", Side.Buy, OrderType.Limit, TimeInForce.IOC, 100, 5⟩ 10).engine.books_
            "S").getD (OrderBook.empty "S")).allOrders) :=
  handleNewOrder_resting_rule (MatchingEngine.mk [("S", OrderBook.empty "S")] [])
    ⟨1, 7, "S", Side.Buy, OrderType.Limit, TimeInForce.IOC, 100, 5⟩ 10
    (OrderBook.empty "S") (by decide) (by decide) (by decide)

/-- **C1 counterexample.** A Limit+IOC Buy 100×5 on known symbol "S" with an
empty book (residual 5 > 0) rests — it is indexed in `orderSymbolIndex` and
added to the book — although its tif is IOC, refuting the claimed
"rests only if tif is Day / Limit+IOC never rests". -/
theorem handleNewOrder_ioc_rests :
    (⟨1, 7, "S", Side.Buy, OrderType.Limit, TimeInForce.IOC, 100, 5⟩ : NewOrder).tif =
        TimeInForce.IOC ∧
      alistFind ((MatchingEngine.empty.addSymbol "S").handleNewOrder
          ⟨1, 7, "S", Side.Buy, OrderType.Limit, TimeInForce.IOC, 100, 5⟩ 10).engine.order_symbol_index_
        1 = some "S" ∧
      (⟨1, 7, 5, 100, Side.Buy, 10⟩ : BookOrder) ∈
        ((alistFind ((MatchingEngine.empty.addSymbol "S").handleNewOrder
            ⟨1, 7, "S", Side.Buy, OrderType.Limit, TimeInForce.IOC, 100, 5⟩ 10).engine.books_
          "S").getD (OrderBook.empty "S")).allOrders := by
  decide

/-- **C2 (amended).** After `handleNewOrder` mutates a book, a `TopOfBook`
update is published iff the book's bid side is populated: the ask branch's
`valid = valid && true` is a no-op, so `valid` records only the presence of
a best bid — a bid-only book publishes a (one-sided) update, and an
ask-only book publishes nothing. -/
theorem handleNewOrder_tob_rule (e : MatchingEngine) (o : NewOrder) (ts_ns : Nat)
    (book : OrderBook) (hbook : alistFind e.books_ o.symbol = some book) :
    (e.handleNewOrder o ts_ns).publishedTob.isSome =
      ((alistFind (e.handleNewOrder o ts_ns).engine.books_ o.symbol).getD
          (OrderBook.empty o.symbol)).bestBid.isSome := by
  simp only [MatchingEngine.handleNewOrder, hbook, alistFind_upsert_self, Option.getD_some]
  exact buildTob_isSome o.symbol _

/-- Witness for C2: submitting a Sell Limit into an empty book leaves only
the ask side populated, and indeed nothing is published. -/
theorem handleNewOrder_tob_rule_witness :
    ((MatchingEngine.mk [("S", OrderBook.empty "S")] []).handleNewOrder
        ⟨1, 0, "S", Side.Sell, OrderType.Limit, TimeInForce.Day, 200, 5⟩ 1).publishedTob.isSome =
      ((alistFind ((MatchingEngine.mk [("S", OrderBook.empty "S")] []).handleNewOrder
          ⟨1, 0, "S", Side.Sell, OrderType.Limit, TimeInForce.Day, 200, 5⟩ 1).engine.books_
        "S").getD (OrderBook.empty "S")).bestBid.isSome :=
  handleNewOrder_tob_rule (MatchingEngine.mk [("S", OrderBook.empty "S")] [])
    ⟨1, 0, "S", Side.Sell, OrderType.Limit, TimeInForce.Day, 200, 5⟩ 1
    (OrderBook.empty "S") (by decide)

/-- **C2 counterexample.** Starting empty, submitting Buy Limit 99×1 leaves
only the bid side populated, yet a `TopOfBook` update is published —
refuting "published iff both sides are populated / one-sided books publish
nothing". -/
theorem handleNewOrder_tob_one_sided :
    ((MatchingEngine.empty.addSymbol "S").handleNewOrder
        ⟨1, 0, "S", Side.Buy, OrderType.Limit, TimeInForce.Day, 99, 1⟩ 1).publishedTob.isSome =
        true ∧
      ((alistFind ((MatchingEngine.empty.addSymbol "S").handleNewOrder
          ⟨1, 0, "S", Side.Buy, OrderType.Limit, TimeInForce.Day, 99, 1⟩ 1).engine.books_
        "S").getD (OrderBook.empty "S")).bestAsk = none := by
  decide

theorem addOrder_length (b : OrderBook) (ord : BookOrder) :
    (b.addOrder ord).allOrders.length = b.allOrders.length + 1 := by
  unfold OrderBook.addOrder
  split <;>
    simp only [OrderBook.allOrders, List.length_append, insertOrder_flatten_length] <;>
    omega

theorem addOrder_mem_of (b : OrderBook) (ord x : BookOrder) (hx : x ∈ b.allOrders) :
    x ∈ (b.addOrder ord).allOrders := by
  unfold OrderBook.addOrder
  simp only [OrderBook.allOrders, List.mem_append] at hx
  split
  · simp only [OrderBook.allOrders, List.mem_append]
    rcases hx with h | h
    · exact Or.inl (insertOrder_mem_of bidLt ord _ x h)
    · exact Or.inr h
  · simp only [OrderBook.allOrders, List.mem_append]
    rcases hx with h | h
    · exact Or.inl h
    · exact Or.inr (insertOrder_mem_of askLt ord _ x h)

/-- `addOrder` stores one index entry for the new order, and that entry's
location dereferences to the freshly appended slot. -/
theorem addOrder_slotAt (b : OrderBook) (ord : BookOrder) :
    ∃ loc, (b.addOrder ord).order_index_ = alistUpsert b.order_index_ ord.id loc ∧
      (b.addOrder ord).slotAt loc = some ord := by
  unfold OrderBook.addOrder OrderBook.slotAt
  split
  · next hside =>
      refine ⟨⟨ord.side, ord.price, (insertOrder bidLt ord b.bids_).2⟩, rfl, ?_⟩
      simp only [hside, if_pos rfl]
      exact insertOrder_points bidLt ord b.bids_
  · next hside =>
      refine ⟨⟨ord.side, ord.price, (insertOrder askLt ord b.asks_).2⟩, rfl, ?_⟩
      simp only [if_neg hside]
      exact insertOrder_points askLt ord b.asks_

/-- **C3 (code bug demonstrated).** A Limit Sell 100×4 partially fills the
resting bid id 1 (100×10): the bid remains on the book with quantity 6, yet
its id has been erased from `orderSymbolIndex` — the source erases the
resting id on *every* trade, not only on full fills, contradicting its own
comment and the spec, and breaking the index-consistency invariant. -/
theorem handleNewOrder_partial_fill_erases_index :
    alistFind (((MatchingEngine.empty.addSymbol "S").handleNewOrder
          ⟨1, 7, "S", Side.Buy, OrderType.Limit, TimeInForce.Day, 100, 10⟩ 1).engine.handleNewOrder
          ⟨2, 8, "S", Side.Sell, OrderType.Limit, TimeInForce.Day, 100, 4⟩ 2).engine.order_symbol_index_
        1 = none ∧
      (⟨1, 7, 6, 100, Side.Buy, 1⟩ : BookOrder) ∈
        ((alistFind (((MatchingEngine.empty.addSymbol "S").handleNewOrder
            ⟨1, 7, "S", Side.Buy, OrderType.Limit, TimeInForce.Day, 100, 10⟩ 1).engine.handleNewOrder
            ⟨2, 8, "S", Side.Sell, OrderType.Limit, TimeInForce.Day, 100, 4⟩ 2).engine.books_
          "S").getD (OrderBook.empty "S")).allOrders ∧
      (((MatchingEngine.empty.addSymbol "S").handleNewOrder
          ⟨1, 7, "S", Side.Buy, OrderType.Limit, TimeInForce.Day, 100, 10⟩ 1).engine.handleNewOrder
          ⟨2, 8, "S", Side.Sell, OrderType.Limit, TimeInForce.Day, 100, 4⟩ 2).publishedTrades.map
        Trade.qty = [4] := by
  decide

/-- **C8.** Calling `addOrder` twice with the same order id (here into an
empty book) leaves both physical slots in their price queues but only one
index entry: the second insertion overwrites the mapping, which now
dereferences to the slot stored by the second call, orphaning the first
slot — two orders rest while the index holds a single id, so the book's
index no longer contains exactly the orders resting in its queues
(index-consistency is violated for this input). -/
theorem addOrder_duplicate_id (sym : SymbolId) (ord1 ord2 : BookOrder)
    (hid : ord2.id = ord1.id) :
    (((OrderBook.empty sym).addOrder ord1).addOrder ord2).allOrders.length = 2 ∧
      ord1 ∈ (((OrderBook.empty sym).addOrder ord1).addOrder ord2).allOrders ∧
      ord2 ∈ (((OrderBook.empty sym).addOrder ord1).addOrder ord2).allOrders ∧
      (((OrderBook.empty sym).addOrder ord1).addOrder ord2).order_index_.length = 1 ∧
      (∃ loc, alistFind (((OrderBook.empty sym).addOrder ord1).addOrder ord2).order_index_
          ord1.id = some loc ∧
        (((OrderBook.empty sym).addOrder ord1).addOrder ord2).slotAt loc = some ord2) ∧
      (((OrderBook.empty sym).addOrder ord1).addOrder ord2).allIds.length ≠
        (((OrderBook.empty sym).addOrder ord1).addOrder ord2).order_index_.length := by
  obtain ⟨loc1, hidx1, hslot1⟩ := addOrder_slotAt (OrderBook.empty sym) ord1
  obtain ⟨loc2, hidx2, hslot2⟩ := addOrder_slotAt ((OrderBook.empty sym).addOrder ord1) ord2
  have hlen : (((OrderBook.empty sym).addOrder ord1).addOrder ord2).allOrders.length = 2 := by
    rw [addOrder_length, addOrder_length]
    rfl
  have hidxeq : (((OrderBook.empty sym).addOrder ord1).addOrder ord2).order_index_ =
      [(ord2.id, loc2)] := by
    rw [hidx2, hidx1]
    simp [OrderBook.empty, alistUpsert, hid]
  refine ⟨hlen, addOrder_mem_of _ ord2 ord1 (addOrder_mem_self _ ord1),
    addOrder_mem_self _ ord2, by rw [hidxeq]; rfl, ⟨loc2, ?_, hslot2⟩, ?_⟩
  · rw [hidxeq]
    simp [alistFind, hid]
  · rw [hidxeq]
    simp [OrderBook.allIds, hlen]

/-- Witness for C8: the order (id 5, Buy 3@10) added twice. -/
theorem addOrder_duplicate_id_witness :
    ((((OrderBook.empty "S").addOrder ⟨5, 0, 3, 10, Side.Buy, 1⟩).addOrder
          ⟨5, 0, 3, 10, Side.Buy, 1⟩).allOrders.length = 2) ∧
      (⟨5, 0, 3, 10, Side.Buy, 1⟩ : BookOrder) ∈
        (((OrderBook.empty "S").addOrder ⟨5, 0, 3, 10, Side.Buy, 1⟩).addOrder
          ⟨5, 0, 3, 10, Side.Buy, 1⟩).allOrders ∧
      (⟨5, 0, 3, 10, Side.Buy, 1⟩ : BookOrder) ∈
        (((OrderBook.empty "S").addOrder ⟨5, 0, 3, 10, Side.Buy, 1⟩).addOrder
          ⟨5, 0, 3, 10, Side.Buy, 1⟩).allOrders ∧
      ((((OrderBook.empty "S").addOrder ⟨5, 0, 3, 10, Side.Buy, 1⟩).addOrder
          ⟨5, 0, 3, 10, Side.Buy, 1⟩).order_index_.length = 1) ∧
      (∃ loc, alistFind (((OrderBook.empty "S").addOrder
            ⟨5, 0, 3, 10, Side.Buy, 1⟩).addOrder
            ⟨5, 0, 3, 10, Side.Buy, 1⟩).order_index_
          (⟨5, 0, 3, 10, Side.Buy, 1⟩ : BookOrder).id = some loc ∧
        (((OrderBook.empty "S").addOrder ⟨5, 0, 3, 10, Side.Buy, 1⟩).addOrder
            ⟨5, 0, 3, 10, Side.Buy, 1⟩).slotAt loc =
          some ⟨5, 0, 3, 10, Side.Buy, 1⟩) ∧
      ((((OrderBook.empty "S").addOrder ⟨5, 0, 3, 10, Side.Buy, 1⟩).addOrder
            ⟨5, 0, 3, 10, Side.Buy, 1⟩).allIds.length ≠
        (((OrderBook.empty "S").addOrder ⟨5, 0, 3, 10, Side.Buy, 1⟩).addOrder
          ⟨5, 0, 3, 10, Side.Buy, 1⟩).order_index_.length) :=
  addOrder_duplicate_id "S" ⟨5, 0, 3, 10, Side.Buy, 1⟩ ⟨5, 0, 3, 10, Side.Buy, 1⟩ rfl

/-- **C7.** On a well-formed book, `cancelOrder` with an id that is not
resting returns false and leaves the book (both side maps and the order
index) unchanged; for a resting id, `cancel(id); cancel(id)` has the first
call return true, the second return false, and the book after the second
call equal to the book after the first. -/
theorem cancelOrder_unknown_and_idem (b : OrderBook) (i : OrderId)
    (hwf : b.wellFormed) :
    (i ∉ b.allIds → b.cancelOrder i = (false, b)) ∧
      (i ∈ b.allIds →
        (b.cancelOrder i).1 = true ∧
          (b.cancelOrder i).2.cancelOrder i = (false, (b.cancelOrder i).2)) := by
  obtain ⟨hwf1, hwf2, hwf3, hwf4⟩ := hwf
  have hndAll : (((flattenOrders b.bids_).map BookOrder.id) ++
      ((flattenOrders b.asks_).map BookOrder.id)).Nodup := by
    have h2 := hwf2
    unfold OrderBook.allIds OrderBook.allOrders at h2
    rwa [List.map_append] at h2
  rw [List.nodup_append] at hndAll
  constructor
  · intro hni
    have hf : alistFind b.order_index_ i = none :=
      find_index_none_of_not_resting b i hwf1 hni
    have hsc : scanErase i b.asks_ = none := by
      refine scanErase_none i b.asks_ ?_
      intro o ho hoid
      refine hni (hoid ▸ List.mem_map_of_mem BookOrder.id ?_)
      unfold OrderBook.allOrders
      exact List.mem_append_right _ ho
    simp [OrderBook.cancelOrder, OrderBook.removeFromSideIdx, hf, hsc]
  · intro hi
    obtain ⟨loc, hf⟩ : ∃ loc, alistFind b.order_index_ i = some loc := by
      cases hfind : alistFind b.order_index_ i with
      | none =>
          have h3 := hwf3 i hi
          rw [hfind] at h3
          simp at h3
      | some l => exact ⟨l, rfl⟩
    have hent := hwf1 (i, loc) (alistFind_mem _ _ _ hf)
    obtain ⟨o, hslot, hoid0⟩ := Option.map_eq_some'.mp hent
    have hoid : o.id = i := hoid0
    have hidxNone : alistFind (alistErase b.order_index_ i) i = none :=
      alistErase_find_self b.order_index_ i hwf4
    by_cases hside : loc.side = Side.Buy
    · have hbids : o ∈ flattenOrders b.bids_ := by
        have hs := slotAt_mem_side b loc o hslot
        rwa [if_pos hside] at hs
      have hAsksFree : ∀ o2 ∈ flattenOrders b.asks_, o2.id ≠ i := by
        intro o2 ho2 ho2id
        exact hndAll.2.2 (hoid ▸ List.mem_map_of_mem BookOrder.id hbids)
          (ho2id ▸ List.mem_map_of_mem BookOrder.id ho2)
      have hcancel : b.cancelOrder i = (true,
          ⟨b.symbol_, eraseFromSideMap loc.price loc.pos b.bids_, b.asks_,
            alistErase b.order_index_ i⟩) := by
        simp [OrderBook.cancelOrder, OrderBook.removeFromSideIdx, hf, hside]
      rw [hcancel]
      refine ⟨rfl, ?_⟩
      have hsc2 : scanErase i b.asks_ = none := scanErase_none i b.asks_ hAsksFree
      simp [OrderBook.cancelOrder, OrderBook.removeFromSideIdx, hidxNone, hsc2]
    · have hslot2 := hslot
      unfold OrderBook.slotAt at hslot2
      rw [if_neg hside] at hslot2
      obtain ⟨q, hfq, hget⟩ : ∃ q, alistFind b.asks_ loc.price = some q ∧
          q.get? loc.pos = some o := by
        cases hfind : alistFind b.asks_ loc.price with
        | none => rw [hfind] at hslot2; simp at hslot2
        | some q =>
            rw [hfind] at hslot2
            simp only [Option.some_bind] at hslot2
            exact ⟨q, rfl, hslot2⟩
      obtain ⟨A, B, hAB1, hAB2⟩ := flatten_eraseFromSideMap loc.price loc.pos b.asks_ q hfq
      have hndAsks : ((flattenOrders b.asks_).map BookOrder.id).Nodup := hndAll.2.1
      rw [hAB1, List.map_append, List.map_append, List.nodup_append] at hndAsks
      have hndQB := hndAsks.2.1
      rw [List.nodup_append] at hndQB
      have hiq : i ∈ q.map BookOrder.id :=
        hoid ▸ List.mem_map_of_mem BookOrder.id (List.get?_mem hget)
      have hAsksFree2 : ∀ o2 ∈ flattenOrders (eraseFromSideMap loc.price loc.pos b.asks_),
          o2.id ≠ i := by
        intro o2 ho2 ho2id
        rw [hAB2] at ho2
        rcases List.mem_append.mp ho2 with h1 | h1
        · exact hndAsks.2.2 (ho2id ▸ List.mem_map_of_mem BookOrder.id h1)
            (List.mem_append_left _ hiq)
        · rcases List.mem_append.mp h1 with h2 | h2
          · refine not_mem_ids_eraseIdx q loc.pos o hget hndQB.1 ?_
            rw [hoid]
            exact ho2id ▸ List.mem_map_of_mem BookOrder.id h2
          · exact hndQB.2.2 hiq (ho2id ▸ List.mem_map_of_mem BookOrder.id h2)
      have hcancel : b.cancelOrder i = (true,
          ⟨b.symbol_, b.bids_, eraseFromSideMap loc.price loc.pos b.asks_,
            alistErase b.order_index_ i⟩) := by
        simp [OrderBook.cancelOrder, OrderBook.removeFromSideIdx, hf, hside]
      rw [hcancel]
      refine ⟨rfl, ?_⟩
      have hsc2 : scanErase i (eraseFromSideMap loc.price loc.pos b.asks_) = none :=
        scanErase_none i _ hAsksFree2
      simp [OrderBook.cancelOrder, OrderBook.removeFromSideIdx, hidxNone, hsc2]

/-- Witness for C7: the book holding only (id 1, Buy 5@100), cancelling id 1
twice and cancelling the unknown id 99. -/
theorem cancelOrder_unknown_and_idem_witness :
    ((99 ∉ ((OrderBook.empty "S").addOrder ⟨1, 7, 5, 100, Side.Buy, 10⟩).allIds →
        ((OrderBook.empty "S").addOrder ⟨1, 7, 5, 100, Side.Buy, 10⟩).cancelOrder 99 =
          (false, (OrderBook.empty "S").addOrder ⟨1, 7, 5, 100, Side.Buy, 10⟩)) ∧
      (99 ∈ ((OrderBook.empty "S").addOrder ⟨1, 7, 5, 100, Side.Buy, 10⟩).allIds →
        (((OrderBook.empty "S").addOrder ⟨1, 7, 5, 100, Side.Buy, 10⟩).cancelOrder 99).1 =
            true ∧
          (((OrderBook.empty "S").addOrder
              ⟨1, 7, 5, 100, Side.Buy, 10⟩).cancelOrder 99).2.cancelOrder 99 =
            (false, (((OrderBook.empty "S").addOrder
              ⟨1, 7, 5, 100, Side.Buy, 10⟩).cancelOrder 99).2))) ∧
      ((1 ∉ ((OrderBook.empty "S").addOrder ⟨1, 7, 5, 100, Side.Buy, 10⟩).allIds →
        ((OrderBook.empty "S").addOrder ⟨1, 7, 5, 100, Side.Buy, 10⟩).cancelOrder 1 =
          (false, (OrderBook.empty "S").addOrder ⟨1, 7, 5, 100, Side.Buy, 10⟩)) ∧
      (1 ∈ ((OrderBook.empty "S").addOrder ⟨1, 7, 5, 100, Side.Buy, 10⟩).allIds →
        (((OrderBook.empty "S").addOrder ⟨1, 7, 5, 100, Side.Buy, 10⟩).cancelOrder 1).1 =
            true ∧
          (((OrderBook.empty "S").addOrder
              ⟨1, 7, 5, 100, Side.Buy, 10⟩).cancelOrder 1).2.cancelOrder 1 =
            (false, (((OrderBook.empty "S").addOrder
              ⟨1, 7, 5, 100, Side.Buy, 10⟩).cancelOrder 1).2))) :=
  ⟨cancelOrder_unknown_and_idem ((OrderBook.empty "S").addOrder ⟨1, 7, 5, 100, Side.Buy, 10⟩)
      99 (by decide),
    cancelOrder_unknown_and_idem ((OrderBook.empty "S").addOrder ⟨1, 7, 5, 100, Side.Buy, 10⟩)
      1 (by decide)⟩

end MarketMicroStructure
